import Mathlib

/-!
Verification of the guidance constrained-decoding core against its
natural-language specification.  The definitions below are shallow
embeddings of the Python source under `src/guidance/`:

* `sample_with_temperature_greedy` embeds the greedy branch of
  `Engine.sample_with_temperature` (`models/_model.py`).
* `engineStep` embeds the accepting-state portion of the generation loop in
  `Engine.__call__` (`models/_model.py`).

Logits are modelled as rationals, vocabulary masks as their byte lists.
-/

namespace Guidance

/-! ## Engine sampling (`models/_model.py`) -/

/-- First index of the maximum, as computed by `np.argmax` (ties resolved to
the earliest index).  `best` carries the best index seen so far, `bv` its
value, `i` the index of the head of the remaining list. -/
def argmaxAux : List ℚ → ℕ → ℕ → ℚ → ℕ
  | [], _, best, _ => best
  | x :: rest, i, best, bv =>
      if bv < x then argmaxAux rest (i + 1) i x else argmaxAux rest (i + 1) best bv

/-- `np.argmax` over a logit vector; `0` on the empty vector. -/
def argmax : List ℚ → ℕ
  | [] => 0
  | x :: rest => argmaxAux rest 1 0 x

/-- The mask application performed by `Engine.sample_with_temperature`:
`logits += np.frombuffer(mask, dtype=np.uint8)` adds each mask byte to the
corresponding logit (elementwise, when a mask is given). -/
def applyMask (logits : List ℚ) (mask : Option (List ℕ)) : List ℚ :=
  match mask with
  | none => logits
  | some m => List.zipWith (fun (x : ℚ) (b : ℕ) => x + (b : ℚ)) logits m

/-- The greedy branch (`temperature < 0.0001`) of
`Engine.sample_with_temperature`: add the mask bytes to the logits and return
`np.argmax` of the result.  (The temperature branch instead samples from the
softmax of the same mask-added logits, which likewise assigns positive
probability to every token.) -/
def sample_with_temperature_greedy (logits : List ℚ) (mask : Option (List ℕ)) : ℕ :=
  argmax (applyMask logits mask)

/-- An issued token together with its reported probability,
modelling the `GenToken` fields used by the loop in `Engine.__call__`. -/
structure GenTok where
  token : ℕ
  prob : ℚ
deriving DecidableEq

/-- One mask/sample/post-correct step of the loop in `Engine.__call__`
(`models/_model.py`), for a step where `gen_data` is present.
`accepting` is `parser.is_accepting()`, `eos` the tokenizer's optional EOS
token id, `genMask` the byte-per-token bitmap `gen_data.mask`, and `sample`
abstracts `get_next_top_k_tokens`, mapping the mask argument passed to the
model to the issued token.  The `assert gen_data.mask[eos_token_id]` of the
source is modelled by returning `none` when it fails. -/
def engineStep (accepting : Bool) (eos : Option ℕ) (genMask : List ℕ)
    (sample : Option (List ℕ) → GenTok) : Option GenTok :=
  let isAcc := accepting && eos.isSome
  if isAcc ∧ genMask.getD (eos.getD 0) 0 = 0 then
    none
  else
    let mask : Option (List ℕ) := if isAcc then none else some genMask
    let out := sample mask
    if isAcc ∧ genMask.getD out.token 0 = 0 then
      some { token := eos.getD 0, prob := 1 }
    else
      some out

end Guidance

namespace Guidance

/-! ## Structural grammar IR

A structural image of the grammar-node graph built by the compilers
(`_grammar.py` is not under `src/`; the constructors below mirror the node
cases listed in the spec's data model: `Byte`, `Join(children)`,
`Select(alternatives, recurse?)`, `Lexeme(regex, contextual, json_string?)`,
`Null`, plus literal strings appended with `+`). -/

inductive GF where
  | byteG (b : ℕ)
  | strG (s : String)
  | null
  | join (children : List GF)
  | selectG (alts : List GF) (recurse : Bool)
  | lexemeG (rx : String) (contextual : Bool) (jsonString : Bool)

/-- Modelled from the spec: `zero_or_more` (`library/_zero_or_more.py` is not
under `src/`); per the spec, the Kleene closure is "a self-recursive Select",
i.e. a `Select` over the body with `recurse` set. -/
def zero_or_more (g : GF) : GF := .selectG [g] true

/-- Modelled from the spec: `optional` (`library/_optional.py` is not under
`src/`); an optional item is a `Select` between the item and the empty
string (`Null`). -/
def optionalG (g : GF) : GF := .selectG [g, .null] false

/-- Modelled from the spec: the `select` constructor of `_grammar.py` (not
under `src/`) canonicalizes trivially — `select([x])` returns `x`; otherwise
it builds a `Select` over the alternatives. -/
def selectC (xs : List GF) : GF :=
  match xs with
  | [x] => x
  | _ => .selectG xs false

/-! ## Regex compiler (`library/_regex.py`) -/

/-- `Transformer.MAX_REPEAT` from `library/_regex.py`: repetition with bounds
`low` and `high`, where `high = none` models the parser's `MAXREPEAT`
(an open upper bound) and `arg` is the compiled body. -/
def MAX_REPEAT (low : ℕ) (high : Option ℕ) (arg : GF) : GF :=
  match high with
  | none =>
      if low = 0 then zero_or_more arg
      else .join (List.replicate low arg ++ [zero_or_more arg])
  | some h => .join (List.replicate low arg ++ List.replicate (h - low) (optionalG arg))

/-! ## JSON-Schema compiler: `anyOf` and `oneOf` (`library/_json.py`) -/

/-- The exact warning text emitted by `GenJson.oneOf` for multiple
alternatives. -/
def oneOfWarnText : String :=
  "oneOf not fully supported, falling back to anyOf. This may cause validation errors in some cases."

/-- `GenJson.anyOf`: a `select` over the compiled alternatives.  `compile`
abstracts `self.json(json_schema=item, base_uri=...)`. -/
def anyOfG {α : Type} (compile : α → GF) (l : List α) : GF :=
  selectC (l.map compile)

/-- `GenJson.oneOf`: with a single alternative, compile it directly; with any
other list, emit the (non-fatal) warning and fall back to `anyOfG`.  The
second component collects warnings (`warnings.warn` in the source). -/
def oneOfG {α : Type} (compile : α → GF) (l : List α) : GF × List String :=
  match l with
  | [s] => (compile s, [])
  | _ => (anyOfG compile l, [oneOfWarnText])

/-! ## Ordered optional sequences (`GenJson._join` and `GenJson.array`)

To reason about separator placement, the element grammars of a
comma-separated sequence are abstracted to atomic tokens: element `k` of the
sequence is the single token `item k`, and the item separator
(`self.item_separator`) is the token `sep`.  The mini-grammar below carries
exactly the combinators the two constructions use — empty string, token,
concatenation (`+`), and binary select — with a computable list-of-words
language. -/

inductive Tok where
  | sep
  | item (i : ℕ)
deriving DecidableEq

/-- The grammar fragment used by `_join` and the array tail: `eps` is the
empty string, `seq` concatenation (`+`), `alt` a two-way `select`. -/
inductive G where
  | eps
  | tok (t : Tok)
  | seq (a b : G)
  | alt (a b : G)
deriving DecidableEq

/-- The (finite) language of a grammar fragment, as a list of words. -/
def lang : G → List (List Tok)
  | .eps => [[]]
  | .tok t => [[t]]
  | .seq a b => (lang a).flatMap (fun u => (lang b).map (fun v => u ++ v))
  | .alt a b => lang a ++ lang b

/-- Modelled from the spec: `optional(x)` is a select between `x` and the
empty string. -/
def optT (g : G) : G := .alt g .eps

/-- The separator grammar (`self.item_separator` as one token). -/
def sepT : G := .tok .sep

/-- Element `i` of the sequence, abstracted to one token. -/
def itemT (i : ℕ) : G := .tok (.item i)

/-- `GenJson._join` with element `k` of the sequence rendered as `item (i+k)`
and required flags `reqs`; `pfx` is the `prefixed` argument. -/
def joinSeq : ℕ → List Bool → Bool → G
  | _, [], _ => .eps
  | i, req :: rest, pfx =>
      if pfx then
        if req then .seq (.seq sepT (itemT i)) (joinSeq (i + 1) rest true)
        else .seq (optT (.seq sepT (itemT i))) (joinSeq (i + 1) rest true)
      else
        if req then .seq (itemT i) (joinSeq (i + 1) rest true)
        else .alt (joinSeq (i + 1) rest false)
          (.seq (itemT i) (joinSeq (i + 1) rest true))

/-- The nested-optional fold of `GenJson.array` over the optional items after
the first: `tail = optional(sep + item + tail)`, innermost `tail = ""`,
for items `i, i+1, …, i+m-1`. -/
def arrayOptNest : ℕ → ℕ → G
  | _, 0 => .eps
  | i, m + 1 => optT (.seq (.seq sepT (itemT i)) (arrayOptNest (i + 1) m))

/-- The optional-items tail of `GenJson.array`: the first optional item
(index `i`) followed by the nested-optional fold over the `m` remaining
optional items. -/
def arrayOptTail (i m : ℕ) : G := .seq (itemT i) (arrayOptNest (i + 1) m)

/-- The indices selected by a Boolean selection vector, starting at `i`. -/
def chosenIdx : ℕ → List Bool → List ℕ
  | _, [] => []
  | i, b :: rest =>
      if b then i :: chosenIdx (i + 1) rest else chosenIdx (i + 1) rest

/-- Render a list of item indices each preceded by a separator. -/
def renderPre : List ℕ → List Tok
  | [] => []
  | i :: rest => Tok.sep :: Tok.item i :: renderPre rest

/-- Render a list of item indices separated by single separators, with no
leading or trailing separator. -/
def render : List ℕ → List Tok
  | [] => []
  | i :: rest => Tok.item i :: renderPre rest

/-- `coversB reqs sel`: the selection has the same length as the required
flags and selects every required position. -/
def coversB : List Bool → List Bool → Bool
  | [], [] => true
  | r :: rs, s :: ss => (!r || s) && coversB rs ss
  | _, _ => false

/-- Separator discipline after an item: the rest of the word alternates
`sep`, `item`, `sep`, `item`, … and does not end in `sep`. -/
def sepOkAux : List Tok → Bool
  | [] => true
  | .sep :: .item _ :: rest => sepOkAux rest
  | _ => false

/-- A word has exactly one separator between any two items and no leading or
trailing separator. -/
def sepOk : List Tok → Bool
  | [] => true
  | .item _ :: rest => sepOkAux rest
  | .sep :: _ => false

/-! ## JSON-Schema compiler: `string` (`library/_json.py`) -/

/-- Python `s.lstrip("^")`: drop every leading `^`. -/
def lstripCaret (s : String) : String :=
  ⟨s.data.dropWhile (fun c => c = '^')⟩

/-- Python `s.rstrip("$")`: drop every trailing `$`. -/
def rstripDollar (s : String) : String :=
  ⟨(s.data.reverse.dropWhile (fun c => c = '$')).reverse⟩

/-- The `FORMAT_PATTERNS` table of `library/_json.py`: format name to regex,
with `none` for formats that are declared but not yet supported. -/
def FORMAT_PATTERNS : List (String × Option String) := [
  ("date-time", some
    "(?P<date>[0-9]\x7b4\x7d-(?:0[1-9]|1[0-2])-(?:0[1-9]|[12][0-9]|3[01]))[tT](?P<time>(?:[01][0-9]|2[0-3]):[0-5][0-9]:(?:[0-5][0-9]|60)(?P<time_fraction>\\.[0-9]+)?(?P<time_zone>[zZ]|[+-](?:[01][0-9]|2[0-3]):[0-5][0-9]))"),
  ("time", some
    "(?:[01][0-9]|2[0-3]):[0-5][0-9]:(?:[0-5][0-9]|60)(?P<time_fraction>\\.[0-9]+)?(?P<time_zone>[zZ]|[+-](?:[01][0-9]|2[0-3]):[0-5][0-9])"),
  ("date", some
    "[0-9]\x7b4\x7d-(?:0[1-9]|1[0-2])-(?:0[1-9]|[12][0-9]|3[01])"),
  ("duration", some
    "P(?:(?P<dur_date>(?:(?P<dur_year>[0-9]+Y(?:[0-9]+M(?:[0-9]+D)?)?)|(?P<dur_month>[0-9]+M(?:[0-9]+D)?)|(?P<dur_day>[0-9]+D))(?:T(?:(?P<dur_hour>[0-9]+H(?:[0-9]+M(?:[0-9]+S)?)?)|(?P<dur_minute>[0-9]+M(?:[0-9]+S)?)|(?P<dur_second>[0-9]+S)))?)|(?P<dur_time>T(?:(?P<dur_hour2>[0-9]+H(?:[0-9]+M(?:[0-9]+S)?)?)|(?P<dur_minute2>[0-9]+M(?:[0-9]+S)?)|(?P<dur_second2>[0-9]+S)))|(?P<dur_week>[0-9]+W))"),
  ("email", some
    "(?P<local_part>(?P<dot_string>[^\\s@\\.]+(\\.[^\\s@\\.]+)*))@((?P<domain>(?P<sub_domain>[a-zA-Z0-9]([a-zA-Z0-9-]*[a-zA-Z0-9])?)(\\.(?P<sub_domain2>[a-zA-Z0-9]([a-zA-Z0-9-]*[a-zA-Z0-9])?))*)|\\[(?P<ipv4>((([0-9])|(([1-9])[0-9]|(25[0-5]|(2[0-4]|(1)[0-9])[0-9])))\\.)\x7b3\x7d(([0-9])|(([1-9])[0-9]|(25[0-5]|(2[0-4]|(1)[0-9])[0-9]))))\\])"),
  ("idn-email", none),
  ("hostname", some
    "[a-zA-Z0-9]([a-zA-Z0-9-]\x7b0,61\x7d[a-zA-Z0-9])?(\\.[a-zA-Z0-9]([a-zA-Z0-9-]\x7b0,61\x7d[a-zA-Z0-9])?)*"),
  ("idn-hostname", none),
  ("ipv4", some
    "((([0-9])|(([1-9])[0-9]|(25[0-5]|(2[0-4]|(1)[0-9])[0-9])))\\.)\x7b3\x7d(([0-9])|(([1-9])[0-9]|(25[0-5]|(2[0-4]|(1)[0-9])[0-9])))"),
  ("ipv6", some
    "(?:(?P<full>(?:[0-9a-fA-F]\x7b1,4\x7d:)\x7b7\x7d[0-9a-fA-F]\x7b1,4\x7d))|(?:::(?:[0-9a-fA-F]\x7b1,4\x7d:)\x7b0,5\x7d(?P<ls32>[0-9a-fA-F]\x7b1,4\x7d:[0-9a-fA-F]\x7b1,4\x7d))|(?:(?P<h16_1>[0-9a-fA-F]\x7b1,4\x7d)?::(?:[0-9a-fA-F]\x7b1,4\x7d:)\x7b0,4\x7d(?P<ls32_1>[0-9a-fA-F]\x7b1,4\x7d:[0-9a-fA-F]\x7b1,4\x7d))|(?:((?:[0-9a-fA-F]\x7b1,4\x7d:)\x7b0,1\x7d[0-9a-fA-F]\x7b1,4\x7d)?::(?:[0-9a-fA-F]\x7b1,4\x7d:)\x7b0,3\x7d(?P<ls32_2>[0-9a-fA-F]\x7b1,4\x7d:[0-9a-fA-F]\x7b1,4\x7d))|(?:((?:[0-9a-fA-F]\x7b1,4\x7d:)\x7b0,2\x7d[0-9a-fA-F]\x7b1,4\x7d)?::(?:[0-9a-fA-F]\x7b1,4\x7d:)\x7b0,2\x7d(?P<ls32_3>[0-9a-fA-F]\x7b1,4\x7d:[0-9a-fA-F]\x7b1,4\x7d))|(?:((?:[0-9a-fA-F]\x7b1,4\x7d:)\x7b0,3\x7d[0-9a-fA-F]\x7b1,4\x7d)?::[0-9a-fA-F]\x7b1,4\x7d:(?P<ls32_4>[0-9a-fA-F]\x7b1,4\x7d:[0-9a-fA-F]\x7b1,4\x7d))|(?:((?:[0-9a-fA-F]\x7b1,4\x7d:)\x7b0,4\x7d[0-9a-fA-F]\x7b1,4\x7d)?::(?P<ls32_5>[0-9a-fA-F]\x7b1,4\x7d:[0-9a-fA-F]\x7b1,4\x7d))|(?:((?:[0-9a-fA-F]\x7b1,4\x7d:)\x7b0,5\x7d[0-9a-fA-F]\x7b1,4\x7d)?::(?P<h16_2>[0-9a-fA-F]\x7b1,4\x7d))|(?:((?:[0-9a-fA-F]\x7b1,4\x7d:)\x7b0,6\x7d[0-9a-fA-F]\x7b1,4\x7d)?::)"),
  ("uuid", some
    "(?P<time_low>[0-9a-fA-F]\x7b8\x7d)-(?P<time_mid>[0-9a-fA-F]\x7b4\x7d)-(?P<time_high_and_version>[0-9a-fA-F]\x7b4\x7d)-(?P<clock_seq_and_reserved>[0-9a-fA-F]\x7b2\x7d)(?P<clock_seq_low>[0-9a-fA-F]\x7b2\x7d)-(?P<node>[0-9a-fA-F]\x7b12\x7d)"),
  ("uri", none),
  ("uri-reference", none),
  ("iri", none),
  ("iri-reference", none),
  ("uri-template", none),
  ("json-pointer", none),
  ("relative-json-pointer", none),
  ("regex", none),
  ("unknown", some
    "(?s:.*)")]

/-- `_get_format_pattern`: a missing key raises `ValueError`, a `None` entry
raises `NotImplementedError`, otherwise the pattern is returned. -/
def get_format_pattern (format : String) : Except String String :=
  match FORMAT_PATTERNS.lookup format with
  | none => .error "Format is not supported"
  | some none => .error "Format is not yet supported"
  | some (some p) => .ok p

/-- The default regex `(?s:.{m,n})` / `(?s:.{m,})` built by `GenJson.string`
from `minLength`/`maxLength` when neither pattern nor format is given. -/
def defaultStringRx (min_length : ℕ) (max_length : Option ℕ) : String :=
  let range_expr :=
    match max_length with
    | some m => "\x7b" ++ toString min_length ++ "," ++ toString m ++ "\x7d"
    | none => "\x7b" ++ toString min_length ++ ",\x7d"
  "(?s:." ++ range_expr ++ ")"

/-- `GenJson.string`: reject a pattern/format combined with length bounds,
reject pattern together with format, resolve a format through the table,
strip outer anchors from a pattern, or fall back to the length-range regex;
the result is a contextual JSON-string lexeme. -/
def stringG (min_length : ℕ) (max_length : Option ℕ)
    (regex : Option String) (format : Option String) : Except String GF :=
  if (regex.isSome ∨ format.isSome) ∧ (0 < min_length ∨ max_length.isSome) then
    .error "If a pattern or format is specified for a JSON string, minLength and maxLength must be left unspecified."
  else if regex.isSome ∧ format.isSome then
    .error "Cannot specify both a regex and a format for a JSON string"
  else
    match format, regex with
    | some f, _ =>
        match get_format_pattern f with
        | .error e => .error e
        | .ok p => .ok (GF.lexemeG p true true)
    | none, some r => .ok (GF.lexemeG (rstripDollar (lstripCaret r)) true true)
    | none, none => .ok (GF.lexemeG (defaultStringRx min_length max_length) true true)

/-- A format that `GenJson.string` cannot use: absent from the table, or
present with no pattern. -/
def formatUnsupportedB (f : String) : Bool :=
  match FORMAT_PATTERNS.lookup f with
  | some (some _) => false
  | _ => true

/-! ## JSON-Schema compiler: `array` (`library/_json.py`) -/

/-- A JSON schema as it matters to `GenJson.array`: the literal `False`,
the literal `True`, or a schema object (abstract). -/
inductive ItemsS (α : Type) where
  | falseS
  | trueS
  | schemaS (s : α)
deriving DecidableEq

/-- Grammar concatenation (`+` on grammar nodes): a binary `Join`. -/
def cat (a b : GF) : GF := .join [a, b]

/-- Modelled from the spec: `sequence` (`library` helper not under `src/`) is
zero-or-more repetitions of its argument, i.e. the self-recursive Select. -/
def sequenceG (g : GF) : GF := .selectG [g] true

/-- The item-collection loop of `GenJson.array`: for each `i` below
`n_to_add` (counted down by `rem`), take the prefix-item schema if `i` is in
range, else the `items` schema unless it is `False`, in which case assert
`i ≥ minItems` (modelled as an error when violated) and break.  Items with
`i < minItems` are required, the rest optional. -/
def arrayLoop {α : Type} [DecidableEq α] (compile : ItemsS α → GF) (pfxItems : List (ItemsS α))
    (items : ItemsS α) (minItems : ℕ) :
    ℕ → ℕ → Except String (List GF × List GF)
  | _, 0 => .ok ([], [])
  | i, rem + 1 =>
    match pfxItems[i]? with
    | some sch =>
        match arrayLoop compile pfxItems items minItems (i + 1) rem with
        | .error e => .error e
        | .ok (req, opt) =>
            if i < minItems then .ok (compile sch :: req, opt)
            else .ok (req, compile sch :: opt)
    | none =>
        if items ≠ ItemsS.falseS then
          match arrayLoop compile pfxItems items minItems (i + 1) rem with
          | .error e => .error e
          | .ok (req, opt) =>
              if i < minItems then .ok (compile items :: req, opt)
              else .ok (req, compile items :: opt)
        else if i < minItems then .error "assert i >= min_items failed"
        else .ok ([], [])

/-- The bracketed item-sequence grammar assembled by `GenJson.array`:
`[`, the required items joined by separators, the nested-optional tail of
the optional items (`optional(sep + tail)` after required items,
`optional(tail)` otherwise), and `]`. -/
def assembleArray (sep : String) (req opt : List GF) : GF :=
  let base := GF.strG "["
  let base :=
    match req with
    | [] => base
    | first :: rest =>
        rest.foldl (fun acc item => cat acc (cat (GF.strG sep) item)) (cat base first)
  let base :=
    match opt with
    | [] => base
    | first :: rest =>
        let tail := cat first
          (rest.foldr (fun item acc => optionalG (cat (cat (GF.strG sep) item) acc))
            (GF.strG ""))
        if req.isEmpty then cat base (optionalG tail)
        else cat base (optionalG (cat (GF.strG sep) tail))
  cat base (GF.strG "]")

/-- The grammar-building tail of `GenJson.array` after the two bound checks:
run the loop over `n_to_add` slots, add the infinite tail when `maxItems` is
unset and `items` is not `False`, and assemble the bracketed sequence. -/
def buildArray {α : Type} [DecidableEq α] (compile : ItemsS α → GF) (pfxItems : List (ItemsS α))
    (items : ItemsS α) (minItems : ℕ) (maxItems : Option ℕ) (sep : String)
    (nToAdd : ℕ) : Except String GF :=
  match arrayLoop compile pfxItems items minItems 0 nToAdd with
  | .error e => .error e
  | .ok (req, opt) =>
      let optFull :=
        if maxItems = none ∧ items ≠ ItemsS.falseS then
          opt ++ [cat (compile items) (sequenceG (cat (GF.strG sep) (compile items)))]
        else opt
      .ok (assembleArray sep req optFull)

/-- `GenJson.array`: raise on an unsatisfiable array (`prefixItems` shorter
than `minItems` with `items: False`), raise on `maxItems < minItems`, and
otherwise build the bracketed item-sequence grammar (`n_to_add` is
`maxItems` when given, else `max(len(prefixItems), minItems)`). -/
def arrayG {α : Type} [DecidableEq α] (compile : ItemsS α → GF) (pfxItems : List (ItemsS α))
    (items : ItemsS α) (minItems : ℕ) (maxItems : Option ℕ) (sep : String) :
    Except String GF :=
  if pfxItems.length < minItems ∧ items = ItemsS.falseS then
    .error "PrefixItems has too few elements to satisfy minItems but no extra items were allowed"
  else
    match maxItems with
    | some mx =>
        if mx < minItems then
          .error "maxItems can't be less than minItems"
        else buildArray compile pfxItems items minItems maxItems sep mx
    | none =>
        buildArray compile pfxItems items minItems maxItems sep
          (max pfxItems.length minItems)

/-! ## JSON-Schema compiler: `allOf` merge (`library/_json.py`)

`GenJson.allOf` walks the constituent schemas with `add_schema`/
`handle_keyword`, maintaining the intersected `type` set (seeded with all
JSON types) and the unified `const`.  The embedding below covers constituent
schemas built from the `const` and `type` keywords — the two keywords whose
handling the claims address; `const` values are an arbitrary decidable type
(the source compares them with `!=`). -/

instance exceptDecEq {ε α : Type} [DecidableEq ε] [DecidableEq α] :
    DecidableEq (Except ε α) := fun a b =>
  match a, b with
  | .ok x, .ok y =>
      if h : x = y then .isTrue (congrArg Except.ok h)
      else .isFalse (fun hc => h (Except.ok.inj hc))
  | .error x, .error y =>
      if h : x = y then .isTrue (congrArg Except.error h)
      else .isFalse (fun hc => h (Except.error.inj hc))
  | .ok _, .error _ => .isFalse (fun hc => Except.noConfusion hc)
  | .error _, .ok _ => .isFalse (fun hc => Except.noConfusion hc)

/-- The seven members of the `JSONType` enum. -/
inductive JTy where
  | nullT
  | booleanT
  | integerT
  | numberT
  | stringT
  | arrayT
  | objectT
deriving DecidableEq, Fintype

/-- A constituent schema restricted to the `const` and `type` keywords
(`typeV` models the keyword's value: a type name or an array of them). -/
structure SchemaF (α : Type) where
  constV : Option α := none
  typeV : Option (List JTy) := none
deriving DecidableEq

/-- The mutable merge state of `GenJson.allOf`: the intersected `type` set
and the unified `const` (`_unset` modelled as `none`). -/
structure MergeSt (α : Type) where
  type : Finset JTy
  const : Option α
deriving DecidableEq

/-- The `value_set` computed by `handle_keyword` for the `type` keyword:
the set of listed types, with `integer` added whenever `number` is present
("Number implies integer"). -/
def augTypes (tys : List JTy) : Finset JTy :=
  let vs := tys.toFinset
  if JTy.numberT ∈ vs then insert JTy.integerT vs else vs

/-- `handle_keyword` for `const`: raise on a second, different value;
otherwise record the value. -/
def handleConst {α : Type} [DecidableEq α] (st : MergeSt α) (v : α) :
    Except String (MergeSt α) :=
  match st.const with
  | some c =>
      if c = v then .ok { st with const := some v }
      else .error "allOf with multiple conflicting const values"
  | none => .ok { st with const := some v }

/-- `handle_keyword` for `type`: intersect with the augmented value set and
raise early if the intersection is empty. -/
def handleType {α : Type} (st : MergeSt α) (tys : List JTy) :
    Except String (MergeSt α) :=
  let newType := st.type ∩ augTypes tys
  if newType = ∅ then .error "allOf with conflicting types"
  else .ok { st with type := newType }

/-- `add_schema` on one constituent: handle its `const` keyword, then its
`type` keyword. -/
def addSchema {α : Type} [DecidableEq α] (st : MergeSt α) (s : SchemaF α) :
    Except String (MergeSt α) :=
  match (match s.constV with
         | some v => handleConst st v
         | none => .ok st) with
  | .error e => .error e
  | .ok st' =>
      match s.typeV with
      | some tys => handleType st' tys
      | none => .ok st'

/-- The loop of `GenJson.allOf` over the constituent schemas of the `allOf`
list. -/
def runAllOf {α : Type} [DecidableEq α] :
    MergeSt α → List (SchemaF α) → Except String (MergeSt α)
  | st, [] => .ok st
  | st, s :: rest =>
      match addSchema st s with
      | .error e => .error e
      | .ok st' => runAllOf st' rest

/-- The `combined_schema` assembled by `GenJson.allOf` (restricted to the
fields the merge above produces). -/
structure CombinedSchema (α : Type) where
  type : Finset JTy
  const : Option α
deriving DecidableEq

/-- `GenJson.allOf`: run the merge from the initial state (`type` seeded with
all JSON types, `const` unset) and compile the combined schema; `compile`
abstracts `self.json(json_schema=combined_schema, ...)`. -/
def allOfG {α β : Type} [DecidableEq α] (compile : CombinedSchema α → β)
    (schemas : List (SchemaF α)) : Except String β :=
  match runAllOf ⟨Finset.univ, none⟩ schemas with
  | .error e => .error e
  | .ok st => .ok (compile ⟨st.type, st.const⟩)

/-- All `const` values appearing in the constituent schemas, in order. -/
def constsOf {α : Type} (schemas : List (SchemaF α)) : List α :=
  schemas.filterMap (·.constV)

/-- Whether two conflicting (unequal) `const` values occur: some later value
differs from the first one. -/
def constConflictB {α : Type} [DecidableEq α] (schemas : List (SchemaF α)) : Bool :=
  match constsOf schemas with
  | [] => false
  | c :: rest => rest.any (fun v => decide (v ≠ c))

/-- The fold of the augmented type-set intersections, from an arbitrary
seed. -/
def mergedTypesFrom {α : Type} (t : Finset JTy) (schemas : List (SchemaF α)) :
    Finset JTy :=
  schemas.foldl
    (fun acc s =>
      match s.typeV with
      | some tys => acc ∩ augTypes tys
      | none => acc)
    t

/-- The intersection of all (augmented) `type` sets, seeded with the full
set of JSON types. -/
def mergedTypes {α : Type} (schemas : List (SchemaF α)) : Finset JTy :=
  mergedTypesFrom Finset.univ schemas

/-- Whether a stream of `const` values is conflict-free relative to an
already-recorded value. -/
def constsOkFrom {α : Type} [DecidableEq α] : Option α → List α → Bool
  | _, [] => true
  | some c, v :: rest => decide (v = c) && constsOkFrom (some c) rest
  | none, v :: rest => constsOkFrom (some v) rest

/-- The unified `const` after a conflict-free merge: the recorded value if
any, else the first value of the stream. -/
def firstConst {α : Type} : Option α → List α → Option α
  | some c, _ => some c
  | none, [] => none
  | none, v :: _ => some v

/-! ## Decorator for stateless grammar functions (`_guidance.py`) -/

/-- A grammar node as seen by the decorator: either a `DeferredReference`
(identified by its allocation id) or a fully built node with an abstract
payload. -/
inductive GNode where
  | deferredRef (id : ℕ)
  | built (val : ℕ)
deriving DecidableEq

/-- The state threaded through `_decorator`'s `wrapped`: the thread-local
slot `_self_call_reference_`, a fresh-id counter for `DeferredReference()`
allocation, and the write-once `value` assignments performed on
DeferredReferences. -/
structure DecSt where
  slot : Option ℕ
  nextId : ℕ
  refValues : List (ℕ × GNode)
deriving DecidableEq

/-- `wrapped` from `_decorator` (`_guidance.py`) for a stateless function
called with zero arguments.  The body `f` is an arbitrary state transformer
that either returns a built node or raises.  If the thread-local slot is
set, the existing DeferredReference is returned without running `f`;
otherwise a fresh DeferredReference is installed in the slot, `f` runs, on
success the node is written into the reference's `value`, and the slot is
cleared on both success and failure (the source's `finally: del`). -/
def wrapped (f : DecSt → Except Unit GNode × DecSt) (s : DecSt) :
    Except Unit GNode × DecSt :=
  match s.slot with
  | some r => (.ok (GNode.deferredRef r), s)
  | none =>
      let r := s.nextId
      let s1 : DecSt := ⟨some r, s.nextId + 1, s.refValues⟩
      let (res, s2) := f s1
      match res with
      | .ok node => (.ok node, ⟨none, s2.nextId, (r, node) :: s2.refValues⟩)
      | .error e => (.error e, ⟨none, s2.nextId, s2.refValues⟩)

/-- Claim C1: in `Engine.sample_with_temperature` with a non-`None` mask,
every token whose mask byte is `0` is supposedly excluded as if its logit
were `-∞`, so the returned token id always has a nonzero mask byte.  The code
instead merely adds the uint8 mask bytes to the logits: with logits
`[10, 0]` and mask bytes `[0, 1]`, the greedy branch returns token `0`,
whose mask byte is `0` — refuting the claim. -/
theorem sample_with_temperature_mask_bug :
    sample_with_temperature_greedy [(10 : ℚ), 0] (some [0, 1]) = 0 ∧
      [0, 1].getD (sample_with_temperature_greedy [(10 : ℚ), 0] (some [0, 1])) 0 = 0 := by
  have h : sample_with_temperature_greedy [(10 : ℚ), 0] (some [0, 1]) = 0 := by
    norm_num [sample_with_temperature_greedy, applyMask, argmax, argmaxAux]
  exact ⟨h, by rw [h]; rfl⟩

/-- Claim C3: in the engine loop, when the parser is accepting and the
tokenizer has an EOS token (and the source's `assert gen_data.mask[eos]`
holds), the model is sampled with no mask (`sample none`); if the sampled
token's mask byte is `0` the issued token is replaced by EOS with
probability `1.0`, and otherwise the sampled token is kept unchanged. -/
theorem engine_accepting_state_relaxation
    (e : ℕ) (genMask : List ℕ) (sample : Option (List ℕ) → GenTok)
    (hAssert : genMask.getD e 0 ≠ 0) :
    engineStep true (some e) genMask sample =
      some (if genMask.getD (sample none).token 0 = 0
              then { token := e, prob := 1 }
              else sample none) := by
  unfold engineStep
  simp only [Option.isSome_some, Bool.and_self, Option.getD_some, true_and,
    Bool.and_true]
  rw [if_neg (by simpa using hAssert), apply_ite some]
  simp

/-- Witness for `engine_accepting_state_relaxation` at EOS id `0`, mask
bytes `[1, 0]` and a sampler that issues token `1` (masked out), so the
engine substitutes EOS with probability one. -/
theorem engine_accepting_state_relaxation_witness :
    ([1, 0] : List ℕ).getD 0 0 ≠ 0 ∧
      engineStep true (some 0) [1, 0] (fun _ => { token := 1, prob := 1 }) =
        some { token := 0, prob := 1 } := by
  refine ⟨by decide, ?_⟩
  rw [engine_accepting_state_relaxation 0 [1, 0] (fun _ => { token := 1, prob := 1 })
    (by decide)]
  decide

lemma mergedTypesFrom_cons {α : Type} (t : Finset JTy) (s : SchemaF α)
    (rest : List (SchemaF α)) :
    mergedTypesFrom t (s :: rest) =
      mergedTypesFrom
        (match s.typeV with
          | some tys => t ∩ augTypes tys
          | none => t) rest := rfl

lemma mergedTypesFrom_subset {α : Type} (schemas : List (SchemaF α)) :
    ∀ t : Finset JTy, mergedTypesFrom t schemas ⊆ t := by
  induction schemas with
  | nil =>
      intro t
      simp [mergedTypesFrom]
  | cons s rest ih =>
      intro t
      rw [mergedTypesFrom_cons]
      cases h : s.typeV with
      | none => simpa [h] using ih t
      | some tys =>
          simp only [h]
          exact Finset.Subset.trans (ih (t ∩ augTypes tys)) Finset.inter_subset_left

lemma constsOf_cons {α : Type} (s : SchemaF α) (rest : List (SchemaF α)) :
    constsOf (s :: rest) =
      match s.constV with
      | some v => v :: constsOf rest
      | none => constsOf rest := by
  cases h : s.constV <;> simp [constsOf, List.filterMap_cons, h]

/-- The core characterization of the `allOf` merge loop: from any state with
a nonempty type set, the loop succeeds exactly when the remaining `const`
stream is conflict-free and every type intersection stays nonempty, and on
success the final state carries the full intersection and the unified
`const`. -/
lemma runAllOf_char {α : Type} [DecidableEq α] (schemas : List (SchemaF α)) :
    ∀ st : MergeSt α,
      (constsOkFrom st.const (constsOf schemas) = true →
        mergedTypesFrom st.type schemas ≠ ∅ →
        runAllOf st schemas =
          .ok ⟨mergedTypesFrom st.type schemas,
               firstConst st.const (constsOf schemas)⟩) ∧
      (st.type ≠ ∅ →
        constsOkFrom st.const (constsOf schemas) = false ∨
          mergedTypesFrom st.type schemas = ∅ →
        ∃ e, runAllOf st schemas = .error e) := by
  induction schemas with
  | nil =>
      rintro ⟨sty, stc⟩
      refine ⟨fun _ _ => ?_, fun hne h => ?_⟩
      · cases stc <;>
          simp [runAllOf, mergedTypesFrom, firstConst, constsOf]
      · rcases h with h | h
        · cases stc <;> simp [constsOf, constsOkFrom] at h
        · exact absurd h hne
  | cons s rest ih =>
      rintro ⟨sty, stc⟩
      have hstep : ∀ (cCur cNew : Option α) (tyNew : Finset JTy),
          runAllOf ⟨sty, cCur⟩ (s :: rest) = runAllOf ⟨tyNew, cNew⟩ rest →
          (sty ≠ ∅ → tyNew ≠ ∅) →
          constsOkFrom cCur (constsOf (s :: rest)) =
            constsOkFrom cNew (constsOf rest) →
          firstConst cCur (constsOf (s :: rest)) =
            firstConst cNew (constsOf rest) →
          mergedTypesFrom sty (s :: rest) = mergedTypesFrom tyNew rest →
          (constsOkFrom cCur (constsOf (s :: rest)) = true →
            mergedTypesFrom sty (s :: rest) ≠ ∅ →
            runAllOf ⟨sty, cCur⟩ (s :: rest) =
              .ok ⟨mergedTypesFrom sty (s :: rest),
                   firstConst cCur (constsOf (s :: rest))⟩) ∧
          (sty ≠ ∅ →
            constsOkFrom cCur (constsOf (s :: rest)) = false ∨
              mergedTypesFrom sty (s :: rest) = ∅ →
            ∃ e, runAllOf ⟨sty, cCur⟩ (s :: rest) = .error e) := by
        intro cCur cNew tyNew hrun hnePres hokEq hfcEq hmg
        refine ⟨fun h1 h2 => ?_, fun hty hbad => ?_⟩
        · rw [hokEq] at h1
          rw [hmg] at h2
          rw [hrun, hmg, hfcEq]
          exact (ih ⟨tyNew, cNew⟩).1 h1 h2
        · rw [hokEq, hmg] at hbad
          simp only [hrun]
          exact (ih ⟨tyNew, cNew⟩).2 (hnePres hty) hbad
      have hdead : ∀ (cCur : Option α) (tys : List JTy), s.typeV = some tys →
          sty ∩ augTypes tys = ∅ →
          runAllOf ⟨sty, cCur⟩ (s :: rest) = .error "allOf with conflicting types" →
          (constsOkFrom cCur (constsOf (s :: rest)) = true →
            mergedTypesFrom sty (s :: rest) ≠ ∅ →
            runAllOf ⟨sty, cCur⟩ (s :: rest) =
              .ok ⟨mergedTypesFrom sty (s :: rest),
                   firstConst cCur (constsOf (s :: rest))⟩) ∧
          (sty ≠ ∅ →
            constsOkFrom cCur (constsOf (s :: rest)) = false ∨
              mergedTypesFrom sty (s :: rest) = ∅ →
            ∃ e, runAllOf ⟨sty, cCur⟩ (s :: rest) = .error e) := by
        intro cCur tys ht hempty hrun
        refine ⟨fun _ hne => ?_, fun _ _ => ⟨_, hrun⟩⟩
        refine absurd ?_ hne
        have hmg : mergedTypesFrom sty (s :: rest) =
            mergedTypesFrom (sty ∩ augTypes tys) rest := by
          simp [mergedTypesFrom_cons, ht]
        rw [hmg]
        exact Finset.subset_empty.mp
          (hempty ▸ mergedTypesFrom_subset rest (sty ∩ augTypes tys))
      cases hc : s.constV with
      | none =>
          have hcs : constsOf (s :: rest) = constsOf rest := by
            simp [constsOf_cons, hc]
          cases ht : s.typeV with
          | none =>
              refine hstep stc stc sty ?_ (fun h => h) ?_ ?_ ?_
              · simp [runAllOf, addSchema, hc, ht]
              · rw [hcs]
              · rw [hcs]
              · simp [mergedTypesFrom_cons, ht]
          | some tys =>
              by_cases hempty : sty ∩ augTypes tys = ∅
              · refine hdead stc tys ht hempty ?_
                simp [runAllOf, addSchema, handleType, hc, ht, hempty]
              · refine hstep stc stc (sty ∩ augTypes tys) ?_ (fun _ => hempty) ?_ ?_ ?_
                · simp [runAllOf, addSchema, handleType, hc, ht, hempty]
                · rw [hcs]
                · rw [hcs]
                · simp [mergedTypesFrom_cons, ht]
      | some v =>
          have hcs : constsOf (s :: rest) = v :: constsOf rest := by
            simp [constsOf_cons, hc]
          cases hstc : stc with
          | none =>
              cases ht : s.typeV with
              | none =>
                  refine hstep none (some v) sty ?_ (fun h => h) ?_ ?_ ?_
                  · simp [runAllOf, addSchema, handleConst, hc, ht]
                  · simp [hcs, constsOkFrom]
                  · simp [hcs, firstConst]
                  · simp [mergedTypesFrom_cons, ht]
              | some tys =>
                  by_cases hempty : sty ∩ augTypes tys = ∅
                  · refine hdead none tys ht hempty ?_
                    simp [runAllOf, addSchema, handleConst, handleType, hc, ht, hempty]
                  · refine hstep none (some v) (sty ∩ augTypes tys) ?_
                      (fun _ => hempty) ?_ ?_ ?_
                    · simp [runAllOf, addSchema, handleConst, handleType, hc, ht,
                        hempty]
                    · simp [hcs, constsOkFrom]
                    · simp [hcs, firstConst]
                    · simp [mergedTypesFrom_cons, ht]
          | some c =>
              by_cases hcv : c = v
              · subst hcv
                cases ht : s.typeV with
                | none =>
                    refine hstep (some c) (some c) sty ?_ (fun h => h) ?_ ?_ ?_
                    · simp [runAllOf, addSchema, handleConst, hc, ht]
                    · simp [hcs, constsOkFrom]
                    · simp [hcs, firstConst]
                    · simp [mergedTypesFrom_cons, ht]
                | some tys =>
                    by_cases hempty : sty ∩ augTypes tys = ∅
                    · refine hdead (some c) tys ht hempty ?_
                      simp [runAllOf, addSchema, handleConst, handleType, hc, ht,
                        hempty]
                    · refine hstep (some c) (some c) (sty ∩ augTypes tys) ?_
                        (fun _ => hempty) ?_ ?_ ?_
                      · simp [runAllOf, addSchema, handleConst, handleType, hc, ht,
                          hempty]
                      · simp [hcs, constsOkFrom]
                      · simp [hcs, firstConst]
                      · simp [mergedTypesFrom_cons, ht]
              · have hrun : runAllOf ⟨sty, some c⟩ (s :: rest) =
                    .error "allOf with multiple conflicting const values" := by
                  simp [runAllOf, addSchema, handleConst, hc, hcv]
                refine ⟨fun hok _ => ?_, fun _ _ => ⟨_, hrun⟩⟩
                rw [hcs] at hok
                simp [constsOkFrom] at hok
                exact absurd hok.1 (fun h => hcv h.symm)

lemma constsOkFrom_some_all {α : Type} [DecidableEq α] (c : α) (l : List α) :
    constsOkFrom (some c) l = l.all (fun v => decide (v = c)) := by
  induction l with
  | nil => rfl
  | cons v rest ih => simp [constsOkFrom, ih]

lemma constsOk_none_iff_no_conflict {α : Type} [DecidableEq α]
    (schemas : List (SchemaF α)) :
    constsOkFrom (none : Option α) (constsOf schemas) = !constConflictB schemas := by
  unfold constConflictB
  cases h : constsOf schemas with
  | nil => rfl
  | cons c rest =>
      simp [constsOkFrom, constsOkFrom_some_all, List.all_eq_not_any_not]

/-- Claim C5: the regex compiler's `MAX_REPEAT` expands every pair of finite
bounds `(m, n)` — `m = 0` included — to a `Join` of `m` mandatory copies of
the body followed by `n - m` optional copies; an open bound `(m,)` with
`m > 0` becomes `m` mandatory copies followed by the Kleene closure (a
self-recursive `Select` over the body), and `(0,)` is the bare Kleene
closure. -/
theorem max_repeat_expansion (arg : GF) (m n : ℕ) :
    MAX_REPEAT m (some n) arg =
        .join (List.replicate m arg ++ List.replicate (n - m) (optionalG arg)) ∧
      MAX_REPEAT 0 none arg = .selectG [arg] true ∧
      (0 < m →
        MAX_REPEAT m none arg =
          .join (List.replicate m arg ++ [.selectG [arg] true])) := by
  refine ⟨rfl, rfl, fun hm => ?_⟩
  simp [MAX_REPEAT, zero_or_more, Nat.pos_iff_ne_zero.mp hm]

/-- Witness for `max_repeat_expansion` at body `Null`: the finite bounds
`(0, 1)` (a bare `?`) and `(2, 3)`, and the open bound `(2,)`. -/
theorem max_repeat_expansion_witness :
    MAX_REPEAT 0 (some 1) GF.null =
        .join (List.replicate 0 GF.null ++ List.replicate (1 - 0) (optionalG GF.null)) ∧
      MAX_REPEAT 2 (some 3) GF.null =
        .join (List.replicate 2 GF.null ++ List.replicate (3 - 2) (optionalG GF.null)) ∧
      MAX_REPEAT 0 none GF.null = .selectG [GF.null] true ∧
      0 < 2 ∧
      MAX_REPEAT 2 none GF.null =
        .join (List.replicate 2 GF.null ++ [.selectG [GF.null] true]) :=
  ⟨(max_repeat_expansion GF.null 0 1).1,
   (max_repeat_expansion GF.null 2 3).1,
   (max_repeat_expansion GF.null 2 3).2.1,
   by decide,
   (max_repeat_expansion GF.null 2 3).2.2 (by decide)⟩

/-- Claim C4: `GenJson.oneOf` with a single alternative returns exactly the
grammar of that alternative (no warning); with more than one alternative it
emits the non-fatal fallback warning and returns the same grammar as
`GenJson.anyOf` on the same list. -/
theorem oneOf_single_exact_multi_anyOf {α : Type} (compile : α → GF) (l : List α) :
    (∀ s, l = [s] → oneOfG compile l = (compile s, [])) ∧
      (1 < l.length → oneOfG compile l = (anyOfG compile l, [oneOfWarnText])) := by
  constructor
  · rintro s rfl
    rfl
  · intro hl
    match l, hl with
    | a :: b :: rest, _ => rfl

/-- Witness for `oneOf_single_exact_multi_anyOf` on the two-element list
`[1, 2]` with a byte-terminal compiler. -/
theorem oneOf_single_exact_multi_anyOf_witness :
    1 < ([1, 2] : List ℕ).length ∧
      oneOfG (fun n : ℕ => GF.byteG n) [1, 2] =
        (anyOfG (fun n : ℕ => GF.byteG n) [1, 2], [oneOfWarnText]) :=
  ⟨by decide, (oneOf_single_exact_multi_anyOf (fun n : ℕ => GF.byteG n) [1, 2]).2 (by decide)⟩

/-- Claim C6: `GenJson.allOf` raises exactly when the merge sees two unequal
`const` values or the (augmented) `type` intersection becomes empty; when
neither conflict occurs it returns the grammar compiled from the merged
(combined) schema — the full type intersection together with the unified
`const`.  Constituent schemas range over the `const`/`type` fragment the
claim addresses. -/
theorem allOf_conflicts_and_merge {α β : Type} [DecidableEq α]
    (compile : CombinedSchema α → β) (schemas : List (SchemaF α)) :
    ((∃ e, allOfG compile schemas = .error e) ↔
        (constConflictB schemas = true ∨ mergedTypes schemas = ∅)) ∧
      (constConflictB schemas = false → mergedTypes schemas ≠ ∅ →
        allOfG compile schemas =
          .ok (compile ⟨mergedTypes schemas, (constsOf schemas).head?⟩)) := by
  have hchar := runAllOf_char schemas (⟨Finset.univ, none⟩ : MergeSt α)
  simp only at hchar
  have hco : constsOkFrom (none : Option α) (constsOf schemas) =
      !constConflictB schemas := constsOk_none_iff_no_conflict schemas
  have hfc : firstConst (none : Option α) (constsOf schemas) =
      (constsOf schemas).head? := by
    cases h : constsOf schemas <;> simp [firstConst]
  have huniv : (Finset.univ : Finset JTy) ≠ ∅ := by decide
  refine ⟨⟨?_, ?_⟩, ?_⟩
  · rintro ⟨e, he⟩
    by_contra hcon
    push_neg at hcon
    obtain ⟨h1, h2⟩ := hcon
    simp only [ne_eq, Bool.not_eq_true] at h1
    have hok := hchar.1 (by rw [hco, h1]; rfl) h2
    rw [hfc] at hok
    simp [allOfG, hok] at he
  · intro hbad
    have hbad' : constsOkFrom (none : Option α) (constsOf schemas) = false ∨
        mergedTypesFrom Finset.univ schemas = ∅ := by
      rcases hbad with hb | hb
      · exact Or.inl (by rw [hco, hb]; rfl)
      · exact Or.inr hb
    obtain ⟨e, he⟩ := hchar.2 huniv hbad'
    exact ⟨e, by simp [allOfG, he]⟩
  · intro h1 h2
    have hok := hchar.1 (by rw [hco, h1]; rfl) h2
    rw [hfc] at hok
    simp [allOfG, hok, mergedTypes]

/-- Witness for `allOf_conflicts_and_merge`: two schemas with the same
`const` (`5`) where the second restricts `type` to `string` merge without
error into the combined schema. -/
theorem allOf_conflicts_and_merge_witness :
    constConflictB
        [({ constV := some 5, typeV := none } : SchemaF ℕ),
         { constV := some 5, typeV := some [JTy.stringT] }] = false ∧
      mergedTypes
          [({ constV := some 5, typeV := none } : SchemaF ℕ),
           { constV := some 5, typeV := some [JTy.stringT] }] ≠ ∅ ∧
      allOfG (fun c : CombinedSchema ℕ => c)
          [{ constV := some 5, typeV := none },
           { constV := some 5, typeV := some [JTy.stringT] }] =
        .ok ⟨mergedTypes
               [({ constV := some 5, typeV := none } : SchemaF ℕ),
                { constV := some 5, typeV := some [JTy.stringT] }],
             (constsOf
               [({ constV := some 5, typeV := none } : SchemaF ℕ),
                { constV := some 5, typeV := some [JTy.stringT] }]).head?⟩ :=
  ⟨by decide, by decide,
    (allOf_conflicts_and_merge (fun c : CombinedSchema ℕ => c) _).2
      (by decide) (by decide)⟩

/-- Claim C10: in the `allOf` type-intersection, any `type` value set that
contains `number` has `integer` added before intersecting, so the allOf of
a `number`-typed schema with an `integer`-typed schema merges successfully
and compiles the combined schema whose type set is exactly `integer`. -/
theorem allOf_number_implies_integer {β : Type} (compile : CombinedSchema ℕ → β) :
    (∀ tys : List JTy, JTy.numberT ∈ tys →
        augTypes tys = insert JTy.integerT tys.toFinset) ∧
      allOfG compile
          [{ constV := none, typeV := some [JTy.numberT] },
           { constV := none, typeV := some [JTy.integerT] }] =
        .ok (compile ⟨{JTy.integerT}, none⟩) := by
  constructor
  · intro tys hmem
    simp [augTypes, List.mem_toFinset.mpr hmem]
  · have hrun : runAllOf (⟨Finset.univ, none⟩ : MergeSt ℕ)
        [{ constV := none, typeV := some [JTy.numberT] },
         { constV := none, typeV := some [JTy.integerT] }] =
        .ok ⟨{JTy.integerT}, none⟩ := by decide
    simp [allOfG, hrun]

/-- Witness for `allOf_number_implies_integer`: the singleton type list
`["number"]` is augmented with `integer`. -/
theorem allOf_number_implies_integer_witness :
    JTy.numberT ∈ [JTy.numberT] ∧
      augTypes [JTy.numberT] = insert JTy.integerT ([JTy.numberT]).toFinset :=
  ⟨by decide,
    (allOf_number_implies_integer (fun c : CombinedSchema ℕ => c)).1
      [JTy.numberT] (by decide)⟩

lemma arrayLoop_ok {α : Type} [DecidableEq α] (compile : ItemsS α → GF)
    (pfxItems : List (ItemsS α)) (items : ItemsS α) (minItems : ℕ)
    (h : ¬(pfxItems.length < minItems ∧ items = ItemsS.falseS)) :
    ∀ rem i : ℕ, ∃ req opt,
      arrayLoop compile pfxItems items minItems i rem = .ok (req, opt) := by
  intro rem
  induction rem with
  | zero => exact fun i => ⟨[], [], rfl⟩
  | succ rem ih =>
      intro i
      cases hg : pfxItems[i]? with
      | some sch =>
          obtain ⟨req, opt, hr⟩ := ih (i + 1)
          by_cases hi : i < minItems
          · exact ⟨compile sch :: req, opt, by simp [arrayLoop, hg, hr, hi]⟩
          · exact ⟨req, compile sch :: opt, by simp [arrayLoop, hg, hr, hi]⟩
      | none =>
          by_cases hit : items = ItemsS.falseS
          · have hlen : ¬ pfxItems.length < minItems := fun hl => h ⟨hl, hit⟩
            have hle : pfxItems.length ≤ i := List.getElem?_eq_none_iff.mp hg
            have hi : ¬ i < minItems := fun hlt => hlen (lt_of_le_of_lt hle hlt)
            exact ⟨[], [], by simp [arrayLoop, hg, hit, hi]⟩
          · obtain ⟨req, opt, hr⟩ := ih (i + 1)
            by_cases hi : i < minItems
            · exact ⟨compile items :: req, opt, by simp [arrayLoop, hg, hr, hi, hit]⟩
            · exact ⟨req, compile items :: opt, by simp [arrayLoop, hg, hr, hi, hit]⟩

lemma buildArray_ok {α : Type} [DecidableEq α] (compile : ItemsS α → GF)
    (pfxItems : List (ItemsS α)) (items : ItemsS α) (minItems : ℕ)
    (maxItems : Option ℕ) (sep : String) (n : ℕ)
    (h : ¬(pfxItems.length < minItems ∧ items = ItemsS.falseS)) :
    ∃ req opt, buildArray compile pfxItems items minItems maxItems sep n =
      .ok (assembleArray sep req opt) := by
  obtain ⟨req, opt, hlp⟩ := arrayLoop_ok compile pfxItems items minItems h n 0
  refine ⟨req,
    if maxItems = none ∧ items ≠ ItemsS.falseS then
      opt ++ [cat (compile items) (sequenceG (cat (GF.strG sep) (compile items)))]
    else opt, ?_⟩
  simp [buildArray, hlp]

/-- Claim C7: `GenJson.array` raises before building any grammar exactly when
`prefixItems` has fewer entries than `minItems` while `items` is `False`,
or `maxItems` is given and smaller than `minItems`; when neither condition
holds it builds the bracketed item-sequence grammar. -/
theorem array_bounds_errors {α : Type} [DecidableEq α] (compile : ItemsS α → GF)
    (pfxItems : List (ItemsS α)) (items : ItemsS α) (minItems : ℕ)
    (maxItems : Option ℕ) (sep : String) :
    ((∃ e, arrayG compile pfxItems items minItems maxItems sep = .error e) ↔
        ((pfxItems.length < minItems ∧ items = ItemsS.falseS) ∨
          (∃ mx, maxItems = some mx ∧ mx < minItems))) ∧
      (¬(pfxItems.length < minItems ∧ items = ItemsS.falseS) →
        (∀ mx, maxItems = some mx → ¬ mx < minItems) →
        ∃ req opt, arrayG compile pfxItems items minItems maxItems sep =
          .ok (assembleArray sep req opt)) := by
  by_cases h1 : pfxItems.length < minItems ∧ items = ItemsS.falseS
  · refine ⟨⟨fun _ => Or.inl h1,
      fun _ =>
        ⟨"PrefixItems has too few elements to satisfy minItems but no extra items were allowed",
         by simp [arrayG, h1]⟩⟩,
      fun hcon _ => absurd h1 hcon⟩
  · cases hmx : maxItems with
    | some mx =>
        by_cases h2 : mx < minItems
        · refine ⟨⟨fun _ => Or.inr ⟨mx, rfl, h2⟩,
            fun _ => ⟨"maxItems can't be less than minItems",
              by simp [arrayG, h1, h2]⟩⟩, fun _ hb => ?_⟩
          exact absurd h2 (hb mx rfl)
        · obtain ⟨req, opt, hbb⟩ :=
            buildArray_ok compile pfxItems items minItems (some mx) sep mx h1
          have hres : arrayG compile pfxItems items minItems (some mx) sep =
              .ok (assembleArray sep req opt) := by
            simp [arrayG, h1, h2, hbb]
          refine ⟨⟨fun ⟨e, he⟩ => ?_, fun hb => ?_⟩, fun _ _ => ⟨req, opt, hres⟩⟩
          · rw [hres] at he
            exact Except.noConfusion he
          · rcases hb with hb | ⟨mx', hmx', hlt⟩
            · exact absurd hb h1
            · obtain rfl : mx' = mx := by
                injection hmx' with h
                exact h.symm
              exact absurd hlt h2
    | none =>
        obtain ⟨req, opt, hbb⟩ :=
          buildArray_ok compile pfxItems items minItems none sep
            (max pfxItems.length minItems) h1
        have hres : arrayG compile pfxItems items minItems none sep =
            .ok (assembleArray sep req opt) := by
          simp [arrayG, h1, hbb]
        refine ⟨⟨fun ⟨e, he⟩ => ?_, fun hb => ?_⟩, fun _ _ => ⟨req, opt, hres⟩⟩
        · rw [hres] at he
          exact Except.noConfusion he
        · rcases hb with hb | ⟨mx', hmx', _⟩
          · exact absurd hb h1
          · exact Option.noConfusion hmx'

/-- Witness for `array_bounds_errors`: an array with no prefix items, free
`items`, and no bounds builds a bracketed grammar. -/
theorem array_bounds_errors_witness :
    ¬((([] : List (ItemsS ℕ)).length < 0) ∧
        (ItemsS.trueS : ItemsS ℕ) = ItemsS.falseS) ∧
      ∃ req opt, arrayG (fun _ : ItemsS ℕ => GF.null) [] ItemsS.trueS 0 none ", " =
        .ok (assembleArray ", " req opt) :=
  ⟨by decide,
    (array_bounds_errors (fun _ : ItemsS ℕ => GF.null) [] ItemsS.trueS 0 none ", ").2
      (by decide) (fun mx h => Option.noConfusion h)⟩

/-- Claim C8: `GenJson.string` raises exactly when a pattern or format comes
with a positive `minLength` or a `maxLength`, when both a pattern and a
format are given, or when the format has no pattern in the table; otherwise
it returns the contextual JSON-string lexeme built from the format pattern,
the anchor-stripped pattern, or the `(?s:.{m,n})` length regex. -/
theorem string_errors_and_lexeme (min_length : ℕ) (max_length : Option ℕ)
    (regex : Option String) (format : Option String) :
    ((∃ e, stringG min_length max_length regex format = .error e) ↔
        (((regex.isSome ∨ format.isSome) ∧ (0 < min_length ∨ max_length.isSome)) ∨
          (regex.isSome ∧ format.isSome) ∨
          (∃ f, format = some f ∧ formatUnsupportedB f = true))) ∧
      (∀ f p, format = some f → regex = none →
          ¬(0 < min_length ∨ max_length.isSome) →
          FORMAT_PATTERNS.lookup f = some (some p) →
          stringG min_length max_length regex format = .ok (GF.lexemeG p true true)) ∧
      (∀ r, format = none → regex = some r →
          ¬(0 < min_length ∨ max_length.isSome) →
          stringG min_length max_length regex format =
            .ok (GF.lexemeG (rstripDollar (lstripCaret r)) true true)) ∧
      (format = none → regex = none →
          stringG min_length max_length regex format =
            .ok (GF.lexemeG (defaultStringRx min_length max_length) true true)) := by
  rcases regex with _ | r <;> rcases format with _ | f
  · refine ⟨?_, ?_, ?_, ?_⟩ <;> simp [stringG]
  · by_cases hlen : 0 < min_length ∨ max_length.isSome
    · refine ⟨?_, ?_, ?_, ?_⟩
      · simp [stringG, hlen]
      · intro f' p hf _ hl _
        exact absurd hlen hl
      · simp
      · simp
    · refine ⟨?_, ?_, ?_, ?_⟩
      · cases hlk : FORMAT_PATTERNS.lookup f with
        | none =>
            simp [stringG, hlen, get_format_pattern, hlk, formatUnsupportedB]
        | some po =>
            cases po with
            | none =>
                simp [stringG, hlen, get_format_pattern, hlk, formatUnsupportedB]
            | some p =>
                simp [stringG, hlen, get_format_pattern, hlk, formatUnsupportedB]
      · intro f' p hf _ _ hlk
        obtain rfl : f' = f := by injection hf with h; exact h.symm
        simp [stringG, hlen, get_format_pattern, hlk]
      · simp
      · simp
  · by_cases hlen : 0 < min_length ∨ max_length.isSome
    · refine ⟨?_, ?_, ?_, ?_⟩
      · simp [stringG, hlen]
      · simp
      · intro r' _ hr hl
        exact absurd hlen hl
      · simp
    · refine ⟨?_, ?_, ?_, ?_⟩
      · simp [stringG, hlen]
      · simp
      · intro r' _ hr _
        obtain rfl : r' = r := by injection hr with h; exact h.symm
        simp [stringG, hlen]
      · simp
  · refine ⟨?_, ?_, ?_, ?_⟩
    · by_cases hlen : 0 < min_length ∨ max_length.isSome
      · simp [stringG, hlen]
      · simp [stringG, hlen]
    · simp
    · simp
    · simp

/-- Witness for `string_errors_and_lexeme`: `minLength 2`, `maxLength 5`,
no pattern and no format yields the length-range lexeme. -/
theorem string_errors_and_lexeme_witness :
    ((none : Option String) = none) ∧
      stringG 2 (some 5) none none =
        .ok (GF.lexemeG (defaultStringRx 2 (some 5)) true true) :=
  ⟨rfl, (string_errors_and_lexeme 2 (some 5) none none).2.2.2 rfl rfl⟩

lemma lang_alt {a b : G} {w : List Tok} :
    w ∈ lang (G.alt a b) ↔ w ∈ lang a ∨ w ∈ lang b := by
  simp [lang]

lemma lang_tok_seq {t : Tok} {b : G} {w : List Tok} :
    w ∈ lang (G.seq (G.tok t) b) ↔ ∃ v ∈ lang b, t :: v = w := by
  simp [lang]

lemma lang_sepItem_seq {i : ℕ} {b : G} {w : List Tok} :
    w ∈ lang (G.seq (G.seq sepT (itemT i)) b) ↔
      ∃ v ∈ lang b, Tok.sep :: Tok.item i :: v = w := by
  simp [lang, sepT, itemT]

lemma lang_optT {g : G} {w : List Tok} :
    w ∈ lang (optT g) ↔ w ∈ lang g ∨ w = [] := by
  simp [optT, lang]

lemma lang_optSepItem_seq {i : ℕ} {b : G} {w : List Tok} :
    w ∈ lang (G.seq (optT (G.seq sepT (itemT i))) b) ↔
      (∃ v ∈ lang b, Tok.sep :: Tok.item i :: v = w) ∨ w ∈ lang b := by
  simp [lang, optT, sepT, itemT]

/-- The language of `GenJson._join` starting at index `i`: the words rendered
from the index sets of the selections covering the required flags —
prefixed (each item preceded by a separator) when `prefixed` is set, and
separator-interleaved otherwise. -/
lemma joinSeq_lang (reqs : List Bool) : ∀ (i : ℕ) (w : List Tok),
    (w ∈ lang (joinSeq i reqs true) ↔
      ∃ sel, coversB reqs sel = true ∧ w = renderPre (chosenIdx i sel)) ∧
    (w ∈ lang (joinSeq i reqs false) ↔
      ∃ sel, coversB reqs sel = true ∧ w = render (chosenIdx i sel)) := by
  induction reqs with
  | nil =>
      intro i w
      constructor
      · constructor
        · intro hw
          refine ⟨[], rfl, ?_⟩
          simpa [joinSeq, lang, chosenIdx, renderPre] using hw
        · rintro ⟨sel, hsel, rfl⟩
          cases sel with
          | nil => simp [joinSeq, lang, chosenIdx, renderPre]
          | cons s ss => simp [coversB] at hsel
      · constructor
        · intro hw
          refine ⟨[], rfl, ?_⟩
          simpa [joinSeq, lang, chosenIdx, render] using hw
        · rintro ⟨sel, hsel, rfl⟩
          cases sel with
          | nil => simp [joinSeq, lang, chosenIdx, render]
          | cons s ss => simp [coversB] at hsel
  | cons req rest ih =>
      intro i w
      cases req with
      | true =>
          constructor
          · rw [show joinSeq i (true :: rest) true =
                G.seq (G.seq sepT (itemT i)) (joinSeq (i + 1) rest true) from rfl,
              lang_sepItem_seq]
            constructor
            · rintro ⟨v, hv, rfl⟩
              obtain ⟨sel, hc, rfl⟩ := ((ih (i + 1) v).1).mp hv
              exact ⟨true :: sel, by simp [coversB, hc],
                by simp [chosenIdx, renderPre]⟩
            · rintro ⟨sel, hsel, rfl⟩
              cases sel with
              | nil => simp [coversB] at hsel
              | cons s ss =>
                  simp [coversB] at hsel
                  obtain ⟨hs, hc⟩ := hsel
                  subst hs
                  refine ⟨renderPre (chosenIdx (i + 1) ss), ?_, ?_⟩
                  · exact ((ih (i + 1) _).1).mpr ⟨ss, hc, rfl⟩
                  · simp [chosenIdx, renderPre]
          · rw [show joinSeq i (true :: rest) false =
                G.seq (itemT i) (joinSeq (i + 1) rest true) from rfl, itemT,
              lang_tok_seq]
            constructor
            · rintro ⟨v, hv, rfl⟩
              obtain ⟨sel, hc, rfl⟩ := ((ih (i + 1) v).1).mp hv
              exact ⟨true :: sel, by simp [coversB, hc],
                by simp [chosenIdx, render]⟩
            · rintro ⟨sel, hsel, rfl⟩
              cases sel with
              | nil => simp [coversB] at hsel
              | cons s ss =>
                  simp [coversB] at hsel
                  obtain ⟨hs, hc⟩ := hsel
                  subst hs
                  refine ⟨renderPre (chosenIdx (i + 1) ss), ?_, ?_⟩
                  · exact ((ih (i + 1) _).1).mpr ⟨ss, hc, rfl⟩
                  · simp [chosenIdx, render]
      | false =>
          constructor
          · rw [show joinSeq i (false :: rest) true =
                G.seq (optT (G.seq sepT (itemT i))) (joinSeq (i + 1) rest true)
                  from rfl,
              lang_optSepItem_seq]
            constructor
            · rintro (⟨v, hv, rfl⟩ | hv)
              · obtain ⟨sel, hc, rfl⟩ := ((ih (i + 1) v).1).mp hv
                exact ⟨true :: sel, by simp [coversB, hc],
                  by simp [chosenIdx, renderPre]⟩
              · obtain ⟨sel, hc, rfl⟩ := ((ih (i + 1) w).1).mp hv
                exact ⟨false :: sel, by simp [coversB, hc],
                  by simp [chosenIdx]⟩
            · rintro ⟨sel, hsel, rfl⟩
              cases sel with
              | nil => simp [coversB] at hsel
              | cons s ss =>
                  simp [coversB] at hsel
                  cases s with
                  | true =>
                      refine Or.inl ⟨renderPre (chosenIdx (i + 1) ss), ?_, ?_⟩
                      · exact ((ih (i + 1) _).1).mpr ⟨ss, hsel, rfl⟩
                      · simp [chosenIdx, renderPre]
                  | false =>
                      refine Or.inr ?_
                      have := ((ih (i + 1) (renderPre (chosenIdx (i + 1) ss))).1).mpr
                        ⟨ss, hsel, rfl⟩
                      simpa [chosenIdx] using this
          · rw [show joinSeq i (false :: rest) false =
                G.alt (joinSeq (i + 1) rest false)
                  (G.seq (itemT i) (joinSeq (i + 1) rest true)) from rfl,
              lang_alt, itemT, lang_tok_seq]
            constructor
            · rintro (hv | ⟨v, hv, rfl⟩)
              · obtain ⟨sel, hc, rfl⟩ := ((ih (i + 1) w).2).mp hv
                exact ⟨false :: sel, by simp [coversB, hc], by simp [chosenIdx]⟩
              · obtain ⟨sel, hc, rfl⟩ := ((ih (i + 1) v).1).mp hv
                exact ⟨true :: sel, by simp [coversB, hc],
                  by simp [chosenIdx, render]⟩
            · rintro ⟨sel, hsel, rfl⟩
              cases sel with
              | nil => simp [coversB] at hsel
              | cons s ss =>
                  simp [coversB] at hsel
                  cases s with
                  | true =>
                      refine Or.inr ⟨renderPre (chosenIdx (i + 1) ss), ?_, ?_⟩
                      · exact ((ih (i + 1) _).1).mpr ⟨ss, hsel, rfl⟩
                      · simp [chosenIdx, render]
                  | false =>
                      refine Or.inl ?_
                      have := ((ih (i + 1) (render (chosenIdx (i + 1) ss))).2).mpr
                        ⟨ss, hsel, rfl⟩
                      simpa [chosenIdx] using this

/-- The language of the nested-optional fold of `GenJson.array`: the prefixed
renderings of the consecutive runs `i, …, i+k-1` for `k ≤ m`. -/
lemma arrayOptNest_lang (m : ℕ) : ∀ (i : ℕ) (w : List Tok),
    w ∈ lang (arrayOptNest i m) ↔
      ∃ k, k ≤ m ∧ w = renderPre (List.range' i k) := by
  induction m with
  | zero =>
      intro i w
      constructor
      · intro hw
        refine ⟨0, le_rfl, ?_⟩
        simpa [arrayOptNest, lang] using hw
      · rintro ⟨k, hk, rfl⟩
        obtain rfl : k = 0 := Nat.le_zero.mp hk
        simp [arrayOptNest, lang, List.range', renderPre]
  | succ m ih =>
      intro i w
      rw [show arrayOptNest i (m + 1) =
          optT (G.seq (G.seq sepT (itemT i)) (arrayOptNest (i + 1) m)) from rfl,
        lang_optT, lang_sepItem_seq]
      constructor
      · rintro (⟨v, hv, rfl⟩ | rfl)
        · obtain ⟨k, hk, rfl⟩ := (ih (i + 1) v).mp hv
          exact ⟨k + 1, Nat.succ_le_succ hk, by simp [List.range', renderPre]⟩
        · exact ⟨0, Nat.zero_le _, rfl⟩
      · rintro ⟨k, hk, rfl⟩
        cases k with
        | zero => exact Or.inr rfl
        | succ k =>
            refine Or.inl ⟨renderPre (List.range' (i + 1) k), ?_, ?_⟩
            · exact (ih (i + 1) _).mpr ⟨k, Nat.le_of_succ_le_succ hk, rfl⟩
            · simp [List.range', renderPre]

/-- The language of the optional-items tail of `GenJson.array`: exactly the
renderings of the prefixes `i, …, i+k` (`k ≤ m`) of the optional items. -/
lemma arrayOptTail_lang (i m : ℕ) (w : List Tok) :
    w ∈ lang (arrayOptTail i m) ↔
      ∃ k, k ≤ m ∧ w = render (List.range' i (k + 1)) := by
  rw [show arrayOptTail i m = G.seq (itemT i) (arrayOptNest (i + 1) m) from rfl,
    itemT, lang_tok_seq]
  constructor
  · rintro ⟨v, hv, rfl⟩
    obtain ⟨k, hk, rfl⟩ := (arrayOptNest_lang m (i + 1) v).mp hv
    exact ⟨k, hk, by simp [List.range', render]⟩
  · rintro ⟨k, hk, rfl⟩
    refine ⟨renderPre (List.range' (i + 1) k), ?_, ?_⟩
    · exact (arrayOptNest_lang m (i + 1) _).mpr ⟨k, hk, rfl⟩
    · simp [List.range', render]

lemma sepOkAux_renderPre (l : List ℕ) : sepOkAux (renderPre l) = true := by
  induction l with
  | nil => rfl
  | cons i rest ih => simpa [renderPre, sepOkAux] using ih

lemma sepOk_render (l : List ℕ) : sepOk (render l) = true := by
  cases l with
  | nil => rfl
  | cons i rest => simpa [render, sepOk] using sepOkAux_renderPre rest

/-- Counterexample to claim C2 as stated: in the nested-optional tail built
by `GenJson.array` for two optional items (tokens `item 0` and `item 1`,
grammar `optional(item 0 · optional(sep · item 1))`), the order-preserving
subset containing only the second optional item — the word `[item 1]`,
which is `render` of the selection `[false, true]` covering the all-optional
flags `[false, false]` — is not accepted, so skipping an optional item does
not leave the following optional items available. -/
theorem array_optional_subset_counterexample :
    coversB [false, false] [false, true] = true ∧
      render (chosenIdx 0 [false, true]) = [Tok.item 1] ∧
      [Tok.item 1] ∉ lang (optT (arrayOptTail 0 1)) := by
  decide

/-- Claim C2 (amended): a word is accepted by the `_join` construction
exactly when it renders an order-preserving selection of the items covering
all required ones (so any order-preserving subset of optional items is
accepted); a word is accepted by the array nested-optional tail exactly
when it renders a consecutive prefix `i, …, i+k` of the optional items (an
optional item may appear only when all earlier optional items are present);
and every rendered word has exactly one separator between adjacent items
and no leading or trailing separator. -/
theorem ordered_optional_sequence_languages :
    (∀ (reqs : List Bool) (w : List Tok),
        w ∈ lang (joinSeq 0 reqs false) ↔
          ∃ sel, coversB reqs sel = true ∧ w = render (chosenIdx 0 sel)) ∧
      (∀ (i m : ℕ) (w : List Tok),
        w ∈ lang (arrayOptTail i m) ↔
          ∃ k, k ≤ m ∧ w = render (List.range' i (k + 1))) ∧
      (∀ l : List ℕ, sepOk (render l) = true) :=
  ⟨fun reqs w => (joinSeq_lang reqs 0 w).2,
   fun i m w => arrayOptTail_lang i m w,
   sepOk_render⟩

/-- Claim C9: the decorator wrapper for a zero-argument stateless grammar
function (i) on re-entry (slot already set) returns the existing
DeferredReference without running the body — the result and state are the
same for every body; (ii) on an outermost call it installs a fresh
DeferredReference in the thread-local slot before running the body, and
when the body returns a node it writes that node into the reference's
`value` and clears the slot; (iii) if the body raises, the slot is still
cleared. -/
theorem wrapped_deferred_reference (f : DecSt → Except Unit GNode × DecSt) (s : DecSt) :
    (∀ r, s.slot = some r →
        (∀ g, wrapped f s = wrapped g s) ∧ wrapped f s = (.ok (GNode.deferredRef r), s)) ∧
      (s.slot = none →
        (∀ node s2, f ⟨some s.nextId, s.nextId + 1, s.refValues⟩ = (.ok node, s2) →
            wrapped f s = (.ok node, ⟨none, s2.nextId, (s.nextId, node) :: s2.refValues⟩)) ∧
          (∀ e s2, f ⟨some s.nextId, s.nextId + 1, s.refValues⟩ = (.error e, s2) →
            wrapped f s = (.error e, ⟨none, s2.nextId, s2.refValues⟩))) := by
  constructor
  · intro r hr
    constructor
    · intro g
      unfold wrapped
      rw [hr]
    · unfold wrapped
      rw [hr]
  · intro hs
    constructor
    · intro node s2 hf
      unfold wrapped
      rw [hs]
      simp only [hf]
    · intro e s2 hf
      unfold wrapped
      rw [hs]
      simp only [hf]

/-- Witness for `wrapped_deferred_reference`: starting from an empty state
with a body that builds node `7`, the wrapper returns the node, records the
value write for reference `0`, and leaves the slot clear. -/
theorem wrapped_deferred_reference_witness :
    (⟨none, 0, []⟩ : DecSt).slot = none ∧
      (fun st : DecSt => ((.ok (GNode.built 7) : Except Unit GNode), st))
          ⟨some (0 : ℕ), 0 + 1, ([] : List (ℕ × GNode))⟩ =
        (.ok (GNode.built 7), ⟨some 0, 1, []⟩) ∧
      wrapped (fun st => (.ok (GNode.built 7), st)) ⟨none, 0, []⟩ =
        (.ok (GNode.built 7), ⟨none, 1, [(0, GNode.built 7)]⟩) := by
  refine ⟨rfl, rfl, ?_⟩
  exact ((wrapped_deferred_reference (fun st => (.ok (GNode.built 7), st))
    ⟨none, 0, []⟩).2 rfl).1 (GNode.built 7) ⟨some 0, 1, []⟩ rfl

end Guidance
